import Mathlib

/-!
Verification of the i18n resource-merger core shared by `add_i18n_keys.py` and
`translate_dialoguer_keys.py`.

The data model is a Python dict embedded as an insertion-ordered association
list: `dictSet` is Python's `d[k] = v` (overwrite in place, else append),
`dictUpdate` is `d.update(a)`, `pyDict` is the `dict(pairs)` constructor
(last duplicate wins).  A list represents an actual Python dict exactly when
its keys are duplicate-free (`DictWf`); theorems take that as a hypothesis
where they need it.
-/

namespace I18n

/-- A StringTable: one locale's mapping from message key to message text. -/
abbrev Table := List (String × String)

/-- A LocaleStore: mapping from locale code to StringTable. -/
abbrev Store := List (String × Table)

/-- Python `d[k]` as a total lookup: value of the first pair whose key is `k`. -/
def dictFind {β : Type} : List (String × β) → String → Option β
  | [], _ => none
  | p :: d, k => if p.1 = k then some p.2 else dictFind d k

/-- Python `k in d`. -/
def dictContains {β : Type} : List (String × β) → String → Bool
  | [], _ => false
  | p :: d, k => if p.1 = k then true else dictContains d k

/-- Python `d[k] = v`: overwrite in place if the key is present, else append. -/
def dictSet {β : Type} (d : List (String × β)) (k : String) (v : β) :
    List (String × β) :=
  if dictContains d k then d.map (fun p => if p.1 = k then (k, v) else p)
  else d ++ [(k, v)]

/-- Python `list(d.keys())` in iteration order. -/
def dictKeys {β : Type} (d : List (String × β)) : List String := d.map Prod.fst

/-- Python `d.update(a)`: set each pair of `a` in iteration order. -/
def dictUpdate {β : Type} (d a : List (String × β)) : List (String × β) :=
  a.foldl (fun acc p => dictSet acc p.1 p.2) d

/-- Python `dict(pairs)`: insert each pair in order (a later duplicate
overwrites an earlier one in place). -/
def pyDict {β : Type} (l : List (String × β)) : List (String × β) :=
  l.foldl (fun acc p => dictSet acc p.1 p.2) []

/-- The association list represents a Python dict: its keys are duplicate-free. -/
def DictWf {β : Type} (d : List (String × β)) : Prop := (dictKeys d).Nodup

/-- The store and every locale's table represent Python dicts. -/
def StoreWf (S : Store) : Prop := DictWf S ∧ ∀ p ∈ S, DictWf p.2

instance {β : Type} (d : List (String × β)) : Decidable (DictWf d) := by
  unfold DictWf; infer_instance

instance (S : Store) : Decidable (StoreWf S) := by
  unfold StoreWf; exact instDecidableAnd

/-- Errors a run can raise.  `keyError k` embeds Python's `KeyError: k`;
`missingLocaleError` is the error class the spec's §7 taxonomy asks a
reimplementation to raise, which the reference code never produces. -/
inductive PyError where
  | keyError (k : String)
  | missingLocaleError (locale : String)
deriving DecidableEq, Repr

instance {ε α : Type} [DecidableEq ε] [DecidableEq α] :
    DecidableEq (Except ε α) := fun a b =>
  match a, b with
  | .error e₁, .error e₂ =>
    if h : e₁ = e₂ then isTrue (by rw [h])
    else isFalse (fun hc => h (by injection hc))
  | .ok v₁, .ok v₂ =>
    if h : v₁ = v₂ then isTrue (by rw [h])
    else isFalse (fun hc => h (by injection hc))
  | .error _, .ok _ => isFalse (fun hc => Except.noConfusion hc)
  | .ok _, .error _ => isFalse (fun hc => Except.noConfusion hc)

/-- MergeSingleLocale.  Embeds `add_i18n_keys.py` line 263,
`messages['en'].update(new_keys)`, generalized over the target locale as in
spec §4.2.  Python first evaluates `messages[locale]`, raising `KeyError`
when the locale is absent, then runs `dict.update`. -/
def mergeSingleLocale (store : Store) (locale : String) (additions : Table) :
    Except PyError Store :=
  match dictFind store locale with
  | none => .error (.keyError locale)
  | some t => .ok (dictSet store locale (dictUpdate t additions))

/-- The locale list hard-coded in `translate_dialoguer_keys.py` line 1092. -/
def fixedLocales : List String := ["ja", "zh", "zh-TW"]

/-- One assignment `messages[lang][key] = trans[lang]`
(`translate_dialoguer_keys.py` line 1093).  Python evaluates the right-hand
side `trans[lang]` first, then the target `messages[lang]`; either lookup
raises `KeyError` when its key is absent. -/
def assignTranslation (store : Store) (trans : Table) (lang key : String) :
    Except PyError Store :=
  match dictFind trans lang with
  | none => .error (.keyError lang)
  | some v =>
    match dictFind store lang with
    | none => .error (.keyError lang)
    | some t => .ok (dictSet store lang (dictSet t key v))

/-- The inner loop `for lang in ['ja', 'zh', 'zh-TW']` of
`translate_dialoguer_keys.py` lines 1092-1093, for one message key. -/
def mergeKeyIntoLocales (store : Store) (trans : Table) (key : String) :
    List String → Except PyError Store
  | [] => .ok store
  | lang :: rest =>
    match assignTranslation store trans lang key with
    | .error e => .error e
    | .ok store' => mergeKeyIntoLocales store' trans key rest

/-- MergeMultiLocale.  Embeds the merge loop of `translate_dialoguer_keys.py`
lines 1091-1093: `for key, trans in translations.items(): for lang in
['ja', 'zh', 'zh-TW']: messages[lang][key] = trans[lang]`. -/
def mergeMultiLocale (store : Store) :
    List (String × Table) → Except PyError Store
  | [] => .ok store
  | (key, tr) :: rest =>
    match mergeKeyIntoLocales store tr key fixedLocales with
    | .error e => .error e
    | .ok store' => mergeMultiLocale store' rest

/-- The order in which Python's `sorted` compares the `(key, value)` tuples
produced by `dict.items()`: lexicographic on the tuple, each component by
code-point string comparison. -/
def pairLe (p q : String × String) : Prop :=
  p.1 < q.1 ∨ (p.1 = q.1 ∧ p.2 ≤ q.2)

instance : DecidableRel pairLe := fun p q => by
  unfold pairLe; infer_instance

instance : IsTotal (String × String) pairLe := ⟨by
  intro p q
  rcases lt_trichotomy p.1 q.1 with h | h | h
  · exact Or.inl (Or.inl h)
  · rcases le_total p.2 q.2 with h2 | h2
    · exact Or.inl (Or.inr ⟨h, h2⟩)
    · exact Or.inr (Or.inr ⟨h.symm, h2⟩)
  · exact Or.inr (Or.inl h)⟩

instance : IsTrans (String × String) pairLe := ⟨by
  intro p q r hpq hqr
  rcases hpq with h | ⟨he, h2⟩
  · rcases hqr with h' | ⟨he', h2'⟩
    · exact Or.inl (h.trans h')
    · exact Or.inl (by rw [← he']; exact h)
  · rcases hqr with h' | ⟨he', h2'⟩
    · exact Or.inl (by rw [he]; exact h')
    · exact Or.inr ⟨he.trans he', h2.trans h2'⟩⟩

instance : IsAntisymm (String × String) pairLe := ⟨by
  intro p q hpq hqp
  rcases hpq with h | ⟨he, h2⟩
  · rcases hqp with h' | ⟨he', h2'⟩
    · exact absurd (h.trans h') (lt_irrefl _)
    · rw [he'] at h; exact absurd h (lt_irrefl _)
  · rcases hqp with h' | ⟨he', h2'⟩
    · rw [he] at h'; exact absurd h' (lt_irrefl _)
    · cases p; cases q
      simp only [Prod.mk.injEq]
      exact ⟨he, le_antisymm h2 h2'⟩⟩

/-- Python `sorted(t.items())`.  Python's sort is a stable mergesort, but
`pairLe` is a total antisymmetric order (ties arise only between identical
tuples), so every correct sort of the same list produces the same output and
insertion sort is a faithful model. -/
def sortItems (t : Table) : Table := List.insertionSort pairLe t

/-- One step of the sort loop, `dict(sorted(messages[lang].items()))`
(`add_i18n_keys.py` line 267, `translate_dialoguer_keys.py` line 1097). -/
def normalizeTable (t : Table) : Table := pyDict (sortItems t)

/-- Normalize: the loop `for lang in messages: messages[lang] =
dict(sorted(messages[lang].items()))` of both scripts.  Iterating the keys
and reassigning each value keeps the store's own key order. -/
def normalize (S : Store) : Store := S.map (fun p => (p.1, normalizeTable p.2))

/-- `store[lang][key]` as a total two-level lookup. -/
def storeGet2 (S : Store) (lang key : String) : Option String :=
  (dictFind S lang).bind (fun t => dictFind t key)

/-- Python `==` on two StringTables: same keys with equal values, order
ignored. -/
def tableEq (t₁ t₂ : Table) : Prop := ∀ k, dictFind t₁ k = dictFind t₂ k

/-- Lift `tableEq` to optional tables. -/
def optTableEq : Option Table → Option Table → Prop
  | none, none => True
  | some t₁, some t₂ => tableEq t₁ t₂
  | _, _ => False

/-- Python `==` on two LocaleStores: same locales, and per-locale tables
equal as Python dicts (order ignored). -/
def storeEq (S₁ S₂ : Store) : Prop :=
  ∀ l, optTableEq (dictFind S₁ l) (dictFind S₂ l)

/-- Recognizer for the spec's MissingLocaleError outcome. -/
def isMissingLocaleError : Except PyError Store → Bool
  | .error (.missingLocaleError _) => true
  | _ => false

/-! ### Serialization: the Save step, `json.dump(messages, f,
ensure_ascii=False, indent=2)` restricted to this file's shape (an object of
objects of strings), modelled at the level of the characters written. -/

/-- Lowercase hex digit, as Python's `'%04x'` formatting produces it. -/
def hexDigitChar (n : Nat) : Char :=
  if n < 10 then Char.ofNat (48 + n) else Char.ofNat (87 + n)

/-- How `json.dump` with `ensure_ascii=False` writes one character inside a
string literal: only the quote, the backslash, and control characters below
0x20 are escaped (the common ones by short escapes, the rest as `\u00XX`);
everything else, including all non-ASCII text, is written verbatim. -/
def escapeChar (c : Char) : List Char :=
  if c = '"' then ['\\', '"']
  else if c = '\\' then ['\\', '\\']
  else if c = '\n' then ['\\', 'n']
  else if c = '\r' then ['\\', 'r']
  else if c = '\t' then ['\\', 't']
  else if c.toNat = 8 then ['\\', 'b']
  else if c.toNat = 12 then ['\\', 'f']
  else if c.toNat < 32 then
    ['\\', 'u', '0', '0', hexDigitChar (c.toNat / 16),
      hexDigitChar (c.toNat % 16)]
  else [c]

/-- A JSON string literal for `s`, quotes included. -/
def encodeJString (s : String) : List Char :=
  '"' :: (s.data.map escapeChar).flatten ++ ['"']

/-- The escaped body of the string literal for `s` (no quotes). -/
def jBody (s : String) : List Char := (s.data.map escapeChar).flatten

/-- One `"key": "value"` member of an inner table, preceded by its 4-space
indent (nesting level 2 with `indent=2`). -/
def serializeTableEntry (kv : String × String) : List Char :=
  [' ', ' ', ' ', ' '] ++ encodeJString kv.1 ++ [':', ' '] ++
    encodeJString kv.2

/-- The members of a non-empty inner table, separated by `,` and newline. -/
def serializeTableItems : Table → List Char
  | [] => []
  | [kv] => serializeTableEntry kv
  | kv :: rest =>
    serializeTableEntry kv ++ [',', '\n'] ++ serializeTableItems rest

/-- One locale's StringTable as `json.dump(indent=2)` prints it at nesting
level 1: braces only when empty, otherwise members on their own lines with
the closing brace indented by two spaces. -/
def serializeTable (t : Table) : List Char :=
  match t with
  | [] => ['{', '}']
  | _ => ['{', '\n'] ++ serializeTableItems t ++ ['\n', ' ', ' ', '}']

/-- One `"locale": { ... }` member of the top-level object, preceded by its
2-space indent. -/
def serializeStoreEntry (p : String × Table) : List Char :=
  [' ', ' '] ++ encodeJString p.1 ++ [':', ' '] ++ serializeTable p.2

/-- The members of a non-empty top-level object. -/
def serializeStoreItems : Store → List Char
  | [] => []
  | [p] => serializeStoreEntry p
  | p :: rest =>
    serializeStoreEntry p ++ [',', '\n'] ++ serializeStoreItems rest

/-- The full text `json.dump` writes for the store. -/
def serializeStore (S : Store) : List Char :=
  match S with
  | [] => ['{', '}']
  | _ => ['{', '\n'] ++ serializeStoreItems S ++ ['\n', '}']

/-- Save (`add_i18n_keys.py` lines 270-271): serialize the store, fully
overwriting the previous file content; the new content is returned. -/
def save (S : Store) : String := ⟨serializeStore S⟩

/-! ### Deserialization: the Load step, `json.load(f)` (`add_i18n_keys.py`
lines 259-260), restricted to this file's shape.  A recursive-descent reader
over the characters: JSON whitespace between tokens, string escapes decoded,
each object built like Python's `dict` (a later duplicate key wins).  Not
modelled: values of other JSON types, and surrogate-pair recombination for
`\uXXXX` escapes (the Save step never produces either). -/

/-- JSON whitespace. -/
def isJsonWs (c : Char) : Bool :=
  c = ' ' || c = '\t' || c = '\n' || c = '\r'

/-- Drop JSON whitespace from the front of the input. -/
def skipWs : List Char → List Char
  | [] => []
  | c :: rest => if isJsonWs c then skipWs rest else c :: rest

/-- Value of one hex digit of a `\uXXXX` escape. -/
def hexVal (c : Char) : Option Nat :=
  if '0' ≤ c ∧ c ≤ '9' then some (c.toNat - 48)
  else if 'a' ≤ c ∧ c ≤ 'f' then some (c.toNat - 87)
  else if 'A' ≤ c ∧ c ≤ 'F' then some (c.toNat - 55)
  else none

/-- The body of a JSON string literal after its opening quote: decodes
escapes, rejects raw control characters (json's strict mode), stops at the
closing quote and returns the remaining input. -/
def parseJStringBody : List Char → Option (List Char × List Char)
  | [] => none
  | c :: rest =>
    if c = '"' then some ([], rest)
    else if c = '\\' then
      match rest with
      | [] => none
      | e :: rest2 =>
        if e = '"' then
          (parseJStringBody rest2).map (fun r => ('"' :: r.1, r.2))
        else if e = '\\' then
          (parseJStringBody rest2).map (fun r => ('\\' :: r.1, r.2))
        else if e = '/' then
          (parseJStringBody rest2).map (fun r => ('/' :: r.1, r.2))
        else if e = 'b' then
          (parseJStringBody rest2).map (fun r => (Char.ofNat 8 :: r.1, r.2))
        else if e = 'f' then
          (parseJStringBody rest2).map (fun r => (Char.ofNat 12 :: r.1, r.2))
        else if e = 'n' then
          (parseJStringBody rest2).map (fun r => ('\n' :: r.1, r.2))
        else if e = 'r' then
          (parseJStringBody rest2).map (fun r => ('\r' :: r.1, r.2))
        else if e = 't' then
          (parseJStringBody rest2).map (fun r => ('\t' :: r.1, r.2))
        else if e = 'u' then
          match rest2 with
          | h1 :: h2 :: h3 :: h4 :: rest3 =>
            match hexVal h1, hexVal h2, hexVal h3, hexVal h4 with
            | some a, some b, some c2, some d =>
              (parseJStringBody rest3).map
                (fun r =>
                  (Char.ofNat (4096 * a + 256 * b + 16 * c2 + d) :: r.1, r.2))
            | _, _, _, _ => none
          | _ => none
        else none
    else if 32 ≤ c.toNat then
      (parseJStringBody rest).map (fun r => (c :: r.1, r.2))
    else none

/-- A JSON string literal, quotes included; returns the decoded String. -/
def parseJString (l : List Char) : Option (String × List Char) :=
  match l with
  | [] => none
  | c :: rest =>
    if c = '"' then (parseJStringBody rest).map (fun r => (⟨r.1⟩, r.2))
    else none

/-- The members of a non-empty object of string values: `"key": "value"`
pairs separated by commas and closed by a brace.  The fuel bounds the number
of members; running out only ever makes parsing fail. -/
def parseTableEntries : Nat → List Char → Option (Table × List Char)
  | 0, _ => none
  | fuel + 1, l =>
    match parseJString (skipWs l) with
    | none => none
    | some (k, l1) =>
      match skipWs l1 with
      | [] => none
      | c :: l2 =>
        if c = ':' then
          match parseJString (skipWs l2) with
          | none => none
          | some (v, l3) =>
            match skipWs l3 with
            | [] => none
            | c2 :: l4 =>
              if c2 = ',' then
                match parseTableEntries fuel l4 with
                | none => none
                | some (es, l5) => some ((k, v) :: es, l5)
              else if c2 = '}' then some ([(k, v)], l4)
              else none
        else none

/-- An object of string values, as `json.load` turns one into a Python dict:
the members in order, a later duplicate key overwriting an earlier one. -/
def parseTable (fuel : Nat) (l : List Char) : Option (Table × List Char) :=
  match l with
  | [] => none
  | c :: l1 =>
    if c = '{' then
      match skipWs l1 with
      | [] => none
      | c2 :: l2 =>
        if c2 = '}' then some ([], l2)
        else
          match parseTableEntries fuel l1 with
          | none => none
          | some (es, r) => some (pyDict es, r)
    else none

/-- The members of the non-empty top-level object, each an object value. -/
def parseStoreEntries : Nat → List Char → Option (Store × List Char)
  | 0, _ => none
  | fuel + 1, l =>
    match parseJString (skipWs l) with
    | none => none
    | some (k, l1) =>
      match skipWs l1 with
      | [] => none
      | c :: l2 =>
        if c = ':' then
          match parseTable fuel (skipWs l2) with
          | none => none
          | some (t, l3) =>
            match skipWs l3 with
            | [] => none
            | c2 :: l4 =>
              if c2 = ',' then
                match parseStoreEntries fuel l4 with
                | none => none
                | some (es, l5) => some ((k, t) :: es, l5)
              else if c2 = '}' then some ([(k, t)], l4)
              else none
        else none

/-- The top-level object. -/
def parseStore (fuel : Nat) (l : List Char) : Option (Store × List Char) :=
  match skipWs l with
  | [] => none
  | c :: l1 =>
    if c = '{' then
      match skipWs l1 with
      | [] => none
      | c2 :: l2 =>
        if c2 = '}' then some ([], l2)
        else
          match parseStoreEntries fuel l1 with
          | none => none
          | some (es, r) => some (pyDict es, r)
    else none

/-- Load (`add_i18n_keys.py` lines 259-260): parse the file content,
requiring the whole input to be consumed as `json.load` does. -/
def load (s : String) : Option Store :=
  match parseStore (s.data.length + 1) s.data with
  | some (S, rest) => if skipWs rest = [] then some S else none
  | none => none

/-- Fuel bound: one unit per object member at either level. -/
def storeSize (S : Store) : Nat :=
  S.foldr (fun p n => p.2.length + 1 + n) 0

/-! ### Association-list lemmas -/

@[simp] theorem dictFind_nil {β : Type} (k : String) :
    dictFind ([] : List (String × β)) k = none := rfl

theorem dictFind_cons {β : Type} (p : String × β) (d : List (String × β))
    (k : String) :
    dictFind (p :: d) k = if p.1 = k then some p.2 else dictFind d k := rfl

@[simp] theorem dictKeys_nil {β : Type} :
    dictKeys ([] : List (String × β)) = [] := rfl

theorem dictKeys_cons {β : Type} (p : String × β) (d : List (String × β)) :
    dictKeys (p :: d) = p.1 :: dictKeys d := rfl

theorem dictContains_cons {β : Type} (p : String × β) (d : List (String × β))
    (k : String) :
    dictContains (p :: d) k = if p.1 = k then true else dictContains d k := rfl

theorem dictContains_iff {β : Type} {d : List (String × β)} {k : String} :
    dictContains d k = true ↔ k ∈ dictKeys d := by
  induction d with
  | nil => simp [dictContains]
  | cons p d ih =>
    rw [dictContains_cons, dictKeys_cons]
    by_cases hp : p.1 = k
    · simp [hp]
    · simp [hp, Ne.symm hp, ih]

theorem dictFind_eq_none_iff {β : Type} {d : List (String × β)} {k : String} :
    dictFind d k = none ↔ k ∉ dictKeys d := by
  induction d with
  | nil => simp
  | cons p d ih =>
    rw [dictFind_cons, dictKeys_cons]
    by_cases hp : p.1 = k
    · simp [hp]
    · simp [hp, Ne.symm hp, ih]

theorem exists_dictFind_of_mem_keys {β : Type} {d : List (String × β)}
    {k : String} (h : k ∈ dictKeys d) : ∃ v, dictFind d k = some v := by
  cases hf : dictFind d k with
  | none => exact absurd (dictFind_eq_none_iff.mp hf) (not_not_intro h)
  | some v => exact ⟨v, rfl⟩

theorem mem_keys_of_dictFind_eq_some {β : Type} {d : List (String × β)}
    {k : String} {v : β} (h : dictFind d k = some v) : k ∈ dictKeys d := by
  by_contra hn
  rw [← dictFind_eq_none_iff] at hn
  rw [hn] at h
  exact Option.noConfusion h

theorem mem_of_dictFind_eq_some {β : Type} {d : List (String × β)}
    {k : String} {v : β} (h : dictFind d k = some v) : (k, v) ∈ d := by
  induction d with
  | nil => simp at h
  | cons p d ih =>
    rw [dictFind_cons] at h
    by_cases hp : p.1 = k
    · rw [if_pos hp] at h
      injection h with h
      apply List.mem_cons.mpr
      left
      cases p
      simp only [Prod.mk.injEq]
      exact ⟨hp.symm, h.symm⟩
    · rw [if_neg hp] at h
      exact List.mem_cons_of_mem p (ih h)

theorem dictFind_eq_some_of_mem {β : Type} {d : List (String × β)}
    {k : String} {v : β} (hw : DictWf d) (h : (k, v) ∈ d) :
    dictFind d k = some v := by
  induction d with
  | nil => simp at h
  | cons p d ih =>
    rw [dictFind_cons]
    rcases List.mem_cons.mp h with h | h
    · rw [if_pos (congrArg Prod.fst h.symm)]
      rw [← h]
    · by_cases hp : p.1 = k
      · exfalso
        have hk : k ∈ dictKeys d := List.mem_map.mpr ⟨(k, v), h, rfl⟩
        have hnd : p.1 ∉ dictKeys d := (List.nodup_cons.mp hw).1
        exact hnd (hp ▸ hk)
      · rw [if_neg hp]
        exact ih (List.Nodup.of_cons hw) h

theorem dictFind_map_overwrite_ne {β : Type} (d : List (String × β))
    (k : String) (v : β) (k' : String) (h : k' ≠ k) :
    dictFind (d.map (fun q => if q.1 = k then (k, v) else q)) k' =
      dictFind d k' := by
  induction d with
  | nil => rfl
  | cons p d ih =>
    simp only [List.map_cons]
    rw [dictFind_cons, dictFind_cons]
    by_cases hp : p.1 = k
    · rw [if_pos hp]
      rw [if_neg (fun hc : (k, v).1 = k' => h hc.symm),
        if_neg (fun hc : p.1 = k' => h (hp ▸ hc).symm)]
      exact ih
    · rw [if_neg hp]
      by_cases hp' : p.1 = k'
      · rw [if_pos hp', if_pos hp']
      · rw [if_neg hp', if_neg hp']; exact ih

theorem dictFind_map_overwrite_self {β : Type} (d : List (String × β))
    (k : String) (v : β) (h : dictContains d k = true) :
    dictFind (d.map (fun q => if q.1 = k then (k, v) else q)) k = some v := by
  induction d with
  | nil => simp [dictContains] at h
  | cons p d ih =>
    simp only [List.map_cons]
    rw [dictFind_cons]
    by_cases hp : p.1 = k
    · rw [if_pos hp]
      rw [if_pos rfl]
    · rw [if_neg hp, if_neg hp]
      rw [dictContains_cons, if_neg hp] at h
      exact ih h

theorem dictFind_append_single {β : Type} (d : List (String × β))
    (k : String) (v : β) (k' : String) (h : dictContains d k = false) :
    dictFind (d ++ [(k, v)]) k' = if k' = k then some v else dictFind d k' := by
  induction d with
  | nil =>
    simp only [List.nil_append, dictFind_nil]
    rw [dictFind_cons]
    by_cases hk : k = k'
    · rw [if_pos hk, if_pos hk.symm]
    · rw [if_neg hk, if_neg (fun hc => hk hc.symm)]
      rfl
  | cons p d ih =>
    rw [dictContains_cons] at h
    by_cases hpk : p.1 = k
    · rw [if_pos hpk] at h; exact absurd h (by simp)
    · rw [if_neg hpk] at h
      simp only [List.cons_append]
      rw [dictFind_cons, dictFind_cons]
      by_cases hp : p.1 = k'
      · rw [if_pos hp, if_pos hp]
        rw [if_neg (fun hc : k' = k => hpk (hp ▸ hc ▸ rfl))]
      · rw [if_neg hp, if_neg hp]
        exact ih h

theorem dictFind_dictSet {β : Type} (d : List (String × β)) (k : String)
    (v : β) (k' : String) :
    dictFind (dictSet d k v) k' = if k' = k then some v else dictFind d k' := by
  by_cases hc : dictContains d k
  · unfold dictSet
    rw [if_pos hc]
    by_cases hk : k' = k
    · subst hk; rw [if_pos rfl]; exact dictFind_map_overwrite_self d k' v hc
    · rw [if_neg hk]; exact dictFind_map_overwrite_ne d k v k' hk
  · unfold dictSet
    rw [if_neg hc]
    exact dictFind_append_single d k v k' (by simpa using hc)

theorem dictKeys_map_overwrite {β : Type} (d : List (String × β)) (k : String)
    (v : β) :
    dictKeys (d.map (fun q => if q.1 = k then (k, v) else q)) = dictKeys d := by
  unfold dictKeys
  rw [List.map_map]
  apply List.map_congr_left
  intro q _
  by_cases hq : q.1 = k
  · simp [hq]
  · simp [hq]

theorem dictKeys_dictSet_of_mem {β : Type} {d : List (String × β)}
    {k : String} (v : β) (h : k ∈ dictKeys d) :
    dictKeys (dictSet d k v) = dictKeys d := by
  unfold dictSet
  rw [if_pos (dictContains_iff.mpr h)]
  exact dictKeys_map_overwrite d k v

theorem dictKeys_dictSet_of_not_mem {β : Type} {d : List (String × β)}
    {k : String} (v : β) (h : k ∉ dictKeys d) :
    dictKeys (dictSet d k v) = dictKeys d ++ [k] := by
  unfold dictSet
  rw [if_neg (fun hc => h (dictContains_iff.mp hc))]
  simp [dictKeys]

theorem DictWf.dictSet {β : Type} {d : List (String × β)} (hw : DictWf d)
    (k : String) (v : β) : DictWf (dictSet d k v) := by
  by_cases h : k ∈ dictKeys d
  · unfold DictWf; rw [dictKeys_dictSet_of_mem v h]; exact hw
  · unfold DictWf
    rw [dictKeys_dictSet_of_not_mem v h]
    simp only [List.nodup_append, List.nodup_cons, List.not_mem_nil,
      not_false_eq_true, List.nodup_nil, and_true, true_and]
    exact ⟨hw, by simpa [List.disjoint_singleton] using h⟩

theorem map_overwrite_of_forall_ne {β : Type} {d : List (String × β)}
    {k : String} (v : β) (h : ∀ q ∈ d, q.1 ≠ k) :
    d.map (fun q => if q.1 = k then (k, v) else q) = d := by
  induction d with
  | nil => rfl
  | cons p d ih =>
    simp only [List.map_cons]
    rw [if_neg (h p (List.mem_cons_self p d))]
    rw [ih (fun q hq => h q (List.mem_cons_of_mem p hq))]

theorem dictSet_cons {β : Type} (p : String × β) (d : List (String × β))
    (k : String) (v : β) :
    dictSet (p :: d) k v =
      if p.1 = k then (k, v) :: d.map (fun q => if q.1 = k then (k, v) else q)
      else p :: dictSet d k v := by
  by_cases hp : p.1 = k
  · rw [if_pos hp]
    unfold dictSet
    rw [if_pos (by rw [dictContains_cons, if_pos hp])]
    simp only [List.map_cons]
    rw [if_pos hp]
  · rw [if_neg hp]
    unfold dictSet
    rw [dictContains_cons, if_neg hp]
    by_cases hc : dictContains d k
    · rw [if_pos hc, if_pos hc]
      simp only [List.map_cons]
      rw [if_neg hp]
    · rw [if_neg hc, if_neg hc]
      rfl

theorem dictSet_eq_self {β : Type} {d : List (String × β)} {k : String}
    {v : β} (hw : DictWf d) (h : dictFind d k = some v) :
    dictSet d k v = d := by
  induction d with
  | nil => simp at h
  | cons p d ih =>
    rw [dictSet_cons]
    rw [dictFind_cons] at h
    by_cases hp : p.1 = k
    · rw [if_pos hp]
      rw [if_pos hp] at h
      have hk : k ∉ dictKeys d := by
        have hnd : p.1 ∉ dictKeys d := (List.nodup_cons.mp hw).1
        exact hp ▸ hnd
      rw [map_overwrite_of_forall_ne v
        (fun q hq hqk => hk (by rw [← hqk]; exact List.mem_map.mpr ⟨q, hq, rfl⟩))]
      have hv : v = p.2 := by injection h with h; exact h.symm
      have hpk : p = (k, v) := by
        cases p; simp only [Prod.mk.injEq]; exact ⟨hp, hv.symm⟩
      rw [← hpk]
    · rw [if_neg hp]
      rw [if_neg hp] at h
      rw [ih (List.Nodup.of_cons hw) h]

theorem dictUpdate_nil {β : Type} (d : List (String × β)) :
    dictUpdate d [] = d := rfl

theorem dictUpdate_cons {β : Type} (d : List (String × β)) (q : String × β)
    (a : List (String × β)) :
    dictUpdate d (q :: a) = dictUpdate (dictSet d q.1 q.2) a := rfl

theorem dictFind_dictUpdate_of_not_mem {β : Type} {a : List (String × β)}
    {k : String} (d : List (String × β)) (h : k ∉ dictKeys a) :
    dictFind (dictUpdate d a) k = dictFind d k := by
  induction a generalizing d with
  | nil => rfl
  | cons q a ih =>
    rw [dictKeys_cons] at h
    rw [dictUpdate_cons,
      ih (dictSet d q.1 q.2) (fun hm => h (List.mem_cons_of_mem _ hm)),
      dictFind_dictSet,
      if_neg (fun he : k = q.1 => h (he ▸ List.mem_cons_self _ _))]

theorem dictFind_dictUpdate_of_mem {β : Type} {a : List (String × β)}
    {k : String} {v : β} (d : List (String × β)) (hw : DictWf a)
    (h : dictFind a k = some v) :
    dictFind (dictUpdate d a) k = some v := by
  induction a generalizing d with
  | nil => simp at h
  | cons q a ih =>
    rw [dictFind_cons] at h
    rw [dictUpdate_cons]
    by_cases hq : q.1 = k
    · rw [if_pos hq] at h
      injection h with h
      have hk : k ∉ dictKeys a := by
        have hnd : q.1 ∉ dictKeys a := (List.nodup_cons.mp hw).1
        exact hq ▸ hnd
      rw [dictFind_dictUpdate_of_not_mem _ hk, dictFind_dictSet, hq,
        if_pos rfl, h]
    · rw [if_neg hq] at h
      exact ih (dictSet d q.1 q.2) (List.Nodup.of_cons hw) h

theorem dictKeys_dictUpdate_disjoint {β : Type} {a : List (String × β)}
    (d : List (String × β)) (hw : DictWf a)
    (hd : ∀ k ∈ dictKeys a, k ∉ dictKeys d) :
    dictKeys (dictUpdate d a) = dictKeys d ++ dictKeys a := by
  induction a generalizing d with
  | nil => simp [dictUpdate_nil]
  | cons q a ih =>
    rw [dictUpdate_cons, dictKeys_cons]
    have hq : q.1 ∉ dictKeys d :=
      hd q.1 (List.mem_cons_self _ _)
    have hset := dictKeys_dictSet_of_not_mem (d := d) q.2 hq
    rw [ih (dictSet d q.1 q.2) (List.Nodup.of_cons hw)
      (fun k hk => by
        rw [hset]
        simp only [List.mem_append, List.mem_singleton]
        rintro (hmem | rfl)
        · exact hd k (List.mem_cons_of_mem _ hk) hmem
        · exact (List.nodup_cons.mp hw).1 hk),
      hset]
    simp

theorem DictWf.dictUpdate {β : Type} {d : List (String × β)} (hw : DictWf d)
    (a : List (String × β)) : DictWf (dictUpdate d a) := by
  induction a generalizing d with
  | nil => exact hw
  | cons q a ih => exact ih (hw.dictSet q.1 q.2)

theorem dictUpdate_eq_self {β : Type} {d a : List (String × β)}
    (hw : DictWf d) (h : ∀ q ∈ a, dictFind d q.1 = some q.2) :
    dictUpdate d a = d := by
  induction a with
  | nil => rfl
  | cons q a ih =>
    rw [dictUpdate_cons, dictSet_eq_self hw (h q (List.mem_cons_self _ _))]
    exact ih (fun q' hq' => h q' (List.mem_cons_of_mem _ hq'))

theorem foldl_dictSet_fresh {β : Type} {l : List (String × β)}
    (acc : List (String × β)) (hw : DictWf l)
    (hd : ∀ k ∈ dictKeys l, k ∉ dictKeys acc) :
    l.foldl (fun acc p => dictSet acc p.1 p.2) acc = acc ++ l := by
  induction l generalizing acc with
  | nil => simp
  | cons q l ih =>
    simp only [List.foldl_cons]
    have hq : q.1 ∉ dictKeys acc := hd q.1 (List.mem_cons_self _ _)
    have hset : dictSet acc q.1 q.2 = acc ++ [q] := by
      unfold dictSet
      rw [if_neg (fun hc => hq (dictContains_iff.mp hc))]
    rw [hset, ih (acc ++ [q]) (List.Nodup.of_cons hw)
      (fun k hk => by
        unfold dictKeys
        simp only [List.map_append, List.mem_append, List.map_cons,
          List.map_nil, List.mem_singleton]
        rintro (hmem | rfl)
        · exact hd k (List.mem_cons_of_mem _ hk) hmem
        · exact (List.nodup_cons.mp hw).1 hk)]
    simp

theorem pyDict_eq_self {β : Type} {l : List (String × β)} (hw : DictWf l) :
    pyDict l = l := by
  unfold pyDict
  rw [foldl_dictSet_fresh [] hw (fun k _ => by simp)]
  rfl

theorem pyDict_wf {β : Type} (l : List (String × β)) :
    DictWf (pyDict l) := by
  have aux : ∀ (l acc : List (String × β)), DictWf acc →
      DictWf (l.foldl (fun acc p => dictSet acc p.1 p.2) acc) := by
    intro l
    induction l with
    | nil => intro acc h; exact h
    | cons q l ih =>
      intro acc h
      exact ih _ (h.dictSet q.1 q.2)
  exact aux l [] (by simp [DictWf])

theorem dictFind_map_value {β γ : Type} (f : β → γ) (S : List (String × β))
    (l : String) :
    dictFind (S.map (fun p => (p.1, f p.2))) l = (dictFind S l).map f := by
  induction S with
  | nil => rfl
  | cons p S ih =>
    simp only [List.map_cons]
    rw [dictFind_cons, dictFind_cons]
    by_cases hp : p.1 = l
    · rw [if_pos hp, if_pos hp]
      rfl
    · rw [if_neg hp, if_neg hp]
      exact ih

theorem dictKeys_map_value {β γ : Type} (f : β → γ) (S : List (String × β)) :
    dictKeys (S.map (fun p => (p.1, f p.2))) = dictKeys S := by
  unfold dictKeys
  rw [List.map_map]
  rfl

/-! ### The tuple order used by Python's sorted -/

theorem sortItems_perm (t : Table) : List.Perm (sortItems t) t :=
  List.perm_insertionSort pairLe t

theorem sortItems_sorted (t : Table) : List.Sorted pairLe (sortItems t) :=
  List.sorted_insertionSort pairLe t

theorem sortItems_of_sorted {t : Table} (h : List.Sorted pairLe t) :
    sortItems t = t :=
  List.eq_of_perm_of_sorted (sortItems_perm t) (sortItems_sorted t) h

theorem sortItems_idem (t : Table) : sortItems (sortItems t) = sortItems t :=
  sortItems_of_sorted (sortItems_sorted t)

theorem sortItems_wf {t : Table} (hw : DictWf t) : DictWf (sortItems t) :=
  ((sortItems_perm t).map Prod.fst).nodup_iff.mpr hw

theorem normalizeTable_eq_sortItems {t : Table} (hw : DictWf t) :
    normalizeTable t = sortItems t :=
  pyDict_eq_self (sortItems_wf hw)

theorem normalizeTable_idem {t : Table} (hw : DictWf t) :
    normalizeTable (normalizeTable t) = normalizeTable t := by
  rw [normalizeTable_eq_sortItems hw,
    normalizeTable_eq_sortItems (sortItems_wf hw), sortItems_idem]

theorem dictKeys_normalize (S : Store) :
    dictKeys (normalize S) = dictKeys S :=
  dictKeys_map_value normalizeTable S

theorem dictFind_normalize (S : Store) (l : String) :
    dictFind (normalize S) l = (dictFind S l).map normalizeTable :=
  dictFind_map_value normalizeTable S l

theorem table_wf_of_dictFind {S : Store} {l : String} {t : Table}
    (hw : StoreWf S) (h : dictFind S l = some t) : DictWf t :=
  hw.2 (l, t) (mem_of_dictFind_eq_some h)

theorem sorted_keys_of_sorted_pairs {t : Table} (hs : List.Sorted pairLe t)
    (hw : DictWf t) : List.Sorted (fun a b : String => a < b) (dictKeys t) := by
  unfold dictKeys
  rw [List.Sorted, List.pairwise_map]
  have hne : List.Pairwise (fun p q : String × String => p.1 ≠ q.1) t := by
    have := hw
    unfold DictWf dictKeys at this
    rw [List.Nodup, List.pairwise_map] at this
    exact this
  exact (hs.and hne).imp (fun h => by
    rcases h with ⟨hle | ⟨he, _⟩, hne⟩
    · exact hle
    · exact absurd he hne)

theorem dictFind_of_perm {t t' : Table} (hw : DictWf t) (hp : List.Perm t t')
    (k : String) : dictFind t' k = dictFind t k := by
  cases hf : dictFind t k with
  | none =>
    rw [dictFind_eq_none_iff] at hf ⊢
    intro hk
    exact hf (by
      unfold dictKeys at hk ⊢
      exact (hp.map Prod.fst).mem_iff.mpr hk)
  | some v =>
    have hw' : DictWf t' := (hp.map Prod.fst).nodup_iff.mp hw
    exact dictFind_eq_some_of_mem hw'
      (hp.subset (mem_of_dictFind_eq_some hf))

/-! ### Single-locale merge lemmas -/

theorem mergeSingleLocale_eq_ok {S : Store} {L : String} {t : Table}
    (A : Table) (ht : dictFind S L = some t) :
    mergeSingleLocale S L A = .ok (dictSet S L (dictUpdate t A)) := by
  unfold mergeSingleLocale
  rw [ht]

theorem mergeSingleLocale_ok_inv {S S' : Store} {L : String} {A : Table}
    (h : mergeSingleLocale S L A = .ok S') :
    ∃ t, dictFind S L = some t ∧ S' = dictSet S L (dictUpdate t A) := by
  unfold mergeSingleLocale at h
  cases ht : dictFind S L with
  | none => rw [ht] at h; simp at h
  | some t =>
    rw [ht] at h
    injection h with h
    exact ⟨t, rfl, h.symm⟩

theorem storeWf_dictSet {S : Store} {l : String} {t : Table}
    (hw : StoreWf S) (hwt : DictWf t) : StoreWf (dictSet S l t) := by
  refine ⟨hw.1.dictSet l t, ?_⟩
  intro p hp
  unfold dictSet at hp
  by_cases hc : dictContains S l
  · rw [if_pos hc] at hp
    rcases List.mem_map.mp hp with ⟨q, hq, rfl⟩
    by_cases hql : q.1 = l
    · rw [if_pos hql]; exact hwt
    · rw [if_neg hql]; exact hw.2 q hq
  · rw [if_neg hc] at hp
    rcases List.mem_append.mp hp with hp | hp
    · exact hw.2 p hp
    · rw [List.mem_singleton.mp hp]; exact hwt

theorem storeWf_mergeSingleLocale {S S' : Store} {L : String} {A : Table}
    (hw : StoreWf S)
    (h : mergeSingleLocale S L A = .ok S') : StoreWf S' := by
  rcases mergeSingleLocale_ok_inv h with ⟨t, ht, rfl⟩
  exact storeWf_dictSet hw ((table_wf_of_dictFind hw ht).dictUpdate A)

/-! ### Multi-locale merge lemmas -/

theorem assignTranslation_ok_inv {S S' : Store} {tr : Table}
    {lang key : String} (h : assignTranslation S tr lang key = .ok S') :
    ∃ v t, dictFind tr lang = some v ∧ dictFind S lang = some t ∧
      S' = dictSet S lang (dictSet t key v) := by
  unfold assignTranslation at h
  cases hv : dictFind tr lang with
  | none => rw [hv] at h; exact Except.noConfusion h
  | some v =>
    rw [hv] at h
    cases ht : dictFind S lang with
    | none => rw [ht] at h; exact Except.noConfusion h
    | some t =>
      rw [ht] at h
      injection h with h
      exact ⟨v, t, rfl, rfl, h.symm⟩

theorem assignTranslation_eq_ok {S : Store} {tr t : Table}
    {lang : String} {v : String} (key : String)
    (hv : dictFind tr lang = some v) (ht : dictFind S lang = some t) :
    assignTranslation S tr lang key = .ok (dictSet S lang (dictSet t key v)) := by
  unfold assignTranslation
  rw [hv, ht]

theorem assignTranslation_char {S S' : Store} {tr : Table} {lang key : String}
    (h : assignTranslation S tr lang key = .ok S') :
    dictKeys S' = dictKeys S ∧
    (∀ l, l ≠ lang → dictFind S' l = dictFind S l) ∧
    storeGet2 S' lang key = dictFind tr lang ∧
    (∀ l k, k ≠ key → storeGet2 S' l k = storeGet2 S l k) := by
  rcases assignTranslation_ok_inv h with ⟨v, t, hv, ht, rfl⟩
  have hfind : ∀ l, dictFind (dictSet S lang (dictSet t key v)) l =
      if l = lang then some (dictSet t key v) else dictFind S l :=
    fun l => dictFind_dictSet S lang (dictSet t key v) l
  refine ⟨?_, ?_, ?_, ?_⟩
  · exact dictKeys_dictSet_of_mem _ (mem_keys_of_dictFind_eq_some ht)
  · intro l hl
    rw [hfind l, if_neg hl]
  · unfold storeGet2
    rw [hfind lang, if_pos rfl]
    simp only [Option.some_bind]
    rw [dictFind_dictSet, if_pos rfl, hv]
  · intro l k hk
    unfold storeGet2
    rw [hfind l]
    by_cases hl : l = lang
    · rw [if_pos hl, hl, ht]
      simp only [Option.some_bind]
      rw [dictFind_dictSet, if_neg hk]
    · rw [if_neg hl]

theorem storeWf_assignTranslation {S S' : Store} {tr : Table}
    {lang key : String} (hw : StoreWf S)
    (h : assignTranslation S tr lang key = .ok S') : StoreWf S' := by
  rcases assignTranslation_ok_inv h with ⟨v, t, _, ht, rfl⟩
  exact storeWf_dictSet hw ((table_wf_of_dictFind hw ht).dictSet key v)

theorem mergeKeyIntoLocales_char {langs : List String} {S S' : Store}
    {tr : Table} {key : String}
    (h : mergeKeyIntoLocales S tr key langs = .ok S') :
    dictKeys S' = dictKeys S ∧
    (∀ l, l ∉ langs → dictFind S' l = dictFind S l) ∧
    (∀ l, l ∈ langs → storeGet2 S' l key = dictFind tr l) ∧
    (∀ l k, k ≠ key → storeGet2 S' l k = storeGet2 S l k) := by
  induction langs generalizing S with
  | nil =>
    unfold mergeKeyIntoLocales at h
    injection h with h
    subst h
    exact ⟨rfl, fun _ _ => rfl, fun l hl => absurd hl (List.not_mem_nil l),
      fun _ _ _ => rfl⟩
  | cons lang rest ih =>
    unfold mergeKeyIntoLocales at h
    cases ha : assignTranslation S tr lang key with
    | error e => rw [ha] at h; simp at h
    | ok S₁ =>
      rw [ha] at h
      obtain ⟨hk₁, hfr₁, hset₁, hother₁⟩ := assignTranslation_char ha
      obtain ⟨hk₂, hfr₂, hset₂, hother₂⟩ := ih h
      refine ⟨hk₂.trans hk₁, ?_, ?_, ?_⟩
      · intro l hl
        rw [hfr₂ l (fun hm => hl (List.mem_cons_of_mem _ hm)),
          hfr₁ l (fun he => hl (he ▸ List.mem_cons_self _ _))]
      · intro l hl
        rcases List.mem_cons.mp hl with rfl | hl
        · by_cases hr : l ∈ rest
          · exact hset₂ l hr
          · unfold storeGet2
            rw [hfr₂ l hr]
            exact hset₁
        · exact hset₂ l hl
      · intro l k hk
        rw [hother₂ l k hk, hother₁ l k hk]

theorem storeWf_mergeKeyIntoLocales {langs : List String} {S S' : Store}
    {tr : Table} {key : String} (hw : StoreWf S)
    (h : mergeKeyIntoLocales S tr key langs = .ok S') : StoreWf S' := by
  induction langs generalizing S with
  | nil =>
    unfold mergeKeyIntoLocales at h
    injection h with h
    exact h ▸ hw
  | cons lang rest ih =>
    unfold mergeKeyIntoLocales at h
    cases ha : assignTranslation S tr lang key with
    | error e => rw [ha] at h; simp at h
    | ok S₁ =>
      rw [ha] at h
      exact ih (storeWf_assignTranslation hw ha) h

theorem mergeKeyIntoLocales_ok {langs : List String} {S : Store} {tr : Table}
    (key : String) (hcov : ∀ l ∈ langs, l ∈ dictKeys tr)
    (hloc : ∀ l ∈ langs, l ∈ dictKeys S) :
    ∃ S', mergeKeyIntoLocales S tr key langs = .ok S' := by
  induction langs generalizing S with
  | nil => exact ⟨S, rfl⟩
  | cons lang rest ih =>
    obtain ⟨v, hv⟩ :=
      exists_dictFind_of_mem_keys (hcov lang (List.mem_cons_self _ _))
    obtain ⟨t, ht⟩ :=
      exists_dictFind_of_mem_keys (hloc lang (List.mem_cons_self _ _))
    have ha := assignTranslation_eq_ok key hv ht
    obtain ⟨hk₁, _, _, _⟩ := assignTranslation_char ha
    obtain ⟨S', hS'⟩ := ih
      (fun l hl => hcov l (List.mem_cons_of_mem _ hl))
      (fun l hl => hk₁ ▸ hloc l (List.mem_cons_of_mem _ hl))
    refine ⟨S', ?_⟩
    unfold mergeKeyIntoLocales
    rw [ha]
    exact hS'

theorem mergeMultiLocale_frame {B : List (String × Table)} {S S' : Store}
    (h : mergeMultiLocale S B = .ok S') :
    dictKeys S' = dictKeys S ∧
    (∀ l, l ∉ fixedLocales → dictFind S' l = dictFind S l) := by
  induction B generalizing S with
  | nil =>
    unfold mergeMultiLocale at h
    injection h with h
    subst h
    exact ⟨rfl, fun _ _ => rfl⟩
  | cons q B ih =>
    unfold mergeMultiLocale at h
    cases hm : mergeKeyIntoLocales S q.2 q.1 fixedLocales with
    | error e => rw [hm] at h; exact Except.noConfusion h
    | ok S₁ =>
      rw [hm] at h
      obtain ⟨hk₁, hfr₁, _, _⟩ := mergeKeyIntoLocales_char hm
      obtain ⟨hk₂, hfr₂⟩ := ih h
      exact ⟨hk₂.trans hk₁, fun l hl => (hfr₂ l hl).trans (hfr₁ l hl)⟩

theorem storeWf_mergeMultiLocale {B : List (String × Table)} {S S' : Store}
    (hw : StoreWf S) (h : mergeMultiLocale S B = .ok S') : StoreWf S' := by
  induction B generalizing S with
  | nil =>
    unfold mergeMultiLocale at h
    injection h with h
    exact h ▸ hw
  | cons q B ih =>
    unfold mergeMultiLocale at h
    cases hm : mergeKeyIntoLocales S q.2 q.1 fixedLocales with
    | error e => rw [hm] at h; exact Except.noConfusion h
    | ok S₁ =>
      rw [hm] at h
      exact ih (storeWf_mergeKeyIntoLocales hw hm) h

theorem mergeMultiLocale_char {B : List (String × Table)} {S : Store}
    (hwS : StoreWf S) (hwB : DictWf B)
    (hloc : ∀ l ∈ fixedLocales, l ∈ dictKeys S)
    (hcov : ∀ q ∈ B, ∀ l ∈ fixedLocales, l ∈ dictKeys q.2) :
    ∃ S', mergeMultiLocale S B = .ok S' ∧
      (∀ l, l ∉ fixedLocales → dictFind S' l = dictFind S l) ∧
      (∀ l k, k ∉ dictKeys B → storeGet2 S' l k = storeGet2 S l k) ∧
      (∀ l ∈ fixedLocales, ∀ k tr, dictFind B k = some tr →
        storeGet2 S' l k = dictFind tr l) := by
  induction B generalizing S with
  | nil =>
    exact ⟨S, rfl, fun _ _ => rfl, fun _ _ _ => rfl,
      fun l _ k tr htr => by simp at htr⟩
  | cons q B ih =>
    obtain ⟨S₁, hS₁⟩ := mergeKeyIntoLocales_ok q.1
      (hcov q (List.mem_cons_self _ _)) hloc
    obtain ⟨hk₁, hfr₁, hset₁, hother₁⟩ := mergeKeyIntoLocales_char hS₁
    obtain ⟨S', hS', hfr₂, hun₂, hset₂⟩ :=
      ih (storeWf_mergeKeyIntoLocales hwS hS₁) (List.Nodup.of_cons hwB)
        (fun l hl => hk₁ ▸ hloc l hl)
        (fun p hp => hcov p (List.mem_cons_of_mem _ hp))
    have hrun : mergeMultiLocale S (q :: B) = .ok S' := by
      unfold mergeMultiLocale
      cases q
      rw [hS₁]
      exact hS'
    refine ⟨S', hrun, ?_, ?_, ?_⟩
    · intro l hl
      rw [hfr₂ l hl, hfr₁ l hl]
    · intro l k hk
      rw [dictKeys_cons] at hk
      rw [hun₂ l k (fun hm => hk (List.mem_cons_of_mem _ hm)),
        hother₁ l k (fun he => hk (he ▸ List.mem_cons_self _ _))]
    · intro l hl k tr htr
      rw [dictFind_cons] at htr
      by_cases hqk : q.1 = k
      · rw [if_pos hqk] at htr
        injection htr with htr
        have hknotB : k ∉ dictKeys B := by
          have : q.1 ∉ dictKeys B := (List.nodup_cons.mp hwB).1
          exact hqk ▸ this
        rw [hun₂ l k hknotB, ← htr, ← hqk]
        exact hset₁ l hl
      · rw [if_neg hqk] at htr
        exact hset₂ l hl k tr htr

/-! ### Claim theorems -/

/-- Claim C1, counterexample.  The multi-locale merge loop iterates the fixed
locale list ja, zh, zh-TW and evaluates `trans[lang]` unconditionally, so the
spec's concrete scenario — batch `b` mapping only ja to バナナ — raises
`KeyError: 'zh'` instead of succeeding with `en` untouched, refuting the
claim at that input. -/
theorem claimC1_counterexample :
    mergeMultiLocale [("en", [("a", "Apple")]), ("ja", [("a", "りんご")])]
        [("b", [("ja", "バナナ")])] =
      .error (.keyError "zh") ∧
    mergeMultiLocale [("en", [("a", "Apple")]), ("ja", [("a", "りんご")])]
        [("b", [("ja", "バナナ")])] ≠
      .ok [("en", [("a", "Apple")]),
           ("ja", [("a", "りんご"), ("b", "バナナ")])] := by
  refine ⟨by decide, by decide⟩

/-- Claim C1, amended.  For a well-formed store containing every fixed locale
(ja, zh, zh-TW) and a well-formed batch in which every key's sub-mapping
contains every fixed locale, MergeMultiLocale succeeds and sets
`store[lang][key] = batch[key][lang]` exactly for the batch's keys and the
fixed locales, leaving every other locale's table and every other key
untouched. -/
theorem claimC1_multi_merge_characterization (S : Store)
    (B : List (String × Table)) (hwS : StoreWf S) (hwB : DictWf B)
    (hloc : ∀ l ∈ fixedLocales, l ∈ dictKeys S)
    (hcov : ∀ q ∈ B, ∀ l ∈ fixedLocales, l ∈ dictKeys q.2) :
    ∃ S', mergeMultiLocale S B = .ok S' ∧
      (∀ l, l ∉ fixedLocales → dictFind S' l = dictFind S l) ∧
      (∀ l k, k ∉ dictKeys B → storeGet2 S' l k = storeGet2 S l k) ∧
      (∀ l ∈ fixedLocales, ∀ k tr, dictFind B k = some tr →
        storeGet2 S' l k = dictFind tr l) :=
  mergeMultiLocale_char hwS hwB hloc hcov

/-- Witness for the amended claim C1 at a concrete store and batch. -/
theorem claimC1_multi_merge_characterization_witness :
    ∃ S', mergeMultiLocale
        [("en", [("a", "A")]), ("ja", []), ("zh", []), ("zh-TW", [])]
        [("b", [("ja", "J"), ("zh", "Z"), ("zh-TW", "T")])] = .ok S' ∧
      (∀ l, l ∉ fixedLocales →
        dictFind S' l =
          dictFind [("en", [("a", "A")]), ("ja", []), ("zh", []),
            ("zh-TW", [])] l) ∧
      (∀ l k, k ∉ dictKeys [("b",
          ([("ja", "J"), ("zh", "Z"), ("zh-TW", "T")] : Table))] →
        storeGet2 S' l k =
          storeGet2 [("en", [("a", "A")]), ("ja", []), ("zh", []),
            ("zh-TW", [])] l k) ∧
      (∀ l ∈ fixedLocales, ∀ k tr,
        dictFind [("b",
          ([("ja", "J"), ("zh", "Z"), ("zh-TW", "T")] : Table))] k = some tr →
        storeGet2 S' l k = dictFind tr l) :=
  claimC1_multi_merge_characterization
    [("en", [("a", "A")]), ("ja", []), ("zh", []), ("zh-TW", [])]
    [("b", [("ja", "J"), ("zh", "Z"), ("zh-TW", "T")])]
    (by decide) (by decide) (by decide) (by decide)

/-- Claim C2, counterexample.  On a store without locale `fr`, the single
locale merge fails with Python's generic `KeyError: 'fr'` (line 263 evaluates
`messages['fr']`), not with the spec's MissingLocaleError class. -/
theorem claimC2_counterexample :
    mergeSingleLocale [("en", [("a", "Apple")])] "fr" [("b", "Pomme")] =
      .error (.keyError "fr") ∧
    isMissingLocaleError
      (mergeSingleLocale [("en", [("a", "Apple")])] "fr" [("b", "Pomme")]) =
      false := by
  refine ⟨by decide, by decide⟩

/-- Claim C2, amended.  Merging into a locale absent from the store always
fails — no locale table is silently created — but the failure is the generic
key-access error (KeyError), not MissingLocaleError. -/
theorem claimC2_missing_locale_fails (S : Store) (L : String) (A : Table)
    (h : L ∉ dictKeys S) :
    mergeSingleLocale S L A = .error (.keyError L) ∧
    isMissingLocaleError (mergeSingleLocale S L A) = false := by
  have he : mergeSingleLocale S L A = .error (.keyError L) := by
    unfold mergeSingleLocale
    rw [dictFind_eq_none_iff.mpr h]
  refine ⟨he, by rw [he]; rfl⟩

/-- Witness for the amended claim C2 at the spec's concrete scenario. -/
theorem claimC2_missing_locale_fails_witness :
    mergeSingleLocale [("en", [("a", "Apple")])] "fr" [("b", "Pomme")] =
      .error (.keyError "fr") ∧
    isMissingLocaleError
      (mergeSingleLocale [("en", [("a", "Apple")])] "fr" [("b", "Pomme")]) =
      false :=
  claimC2_missing_locale_fails [("en", [("a", "Apple")])] "fr"
    [("b", "Pomme")] (by decide)

/-- Claim C3.  MergeSingleLocale is idempotent: for every well-formed store,
locale present in it, and well-formed additions map, merging produces a store
on which merging the same additions again is the identity. -/
theorem claimC3_merge_idempotent (S : Store) (L : String) (A : Table)
    (hwS : StoreWf S) (hwA : DictWf A) (hL : L ∈ dictKeys S) :
    ∃ S₁, mergeSingleLocale S L A = .ok S₁ ∧
      mergeSingleLocale S₁ L A = .ok S₁ := by
  obtain ⟨t, ht⟩ := exists_dictFind_of_mem_keys hL
  have hwt : DictWf t := table_wf_of_dictFind hwS ht
  have hwu : DictWf (dictUpdate t A) := hwt.dictUpdate A
  refine ⟨dictSet S L (dictUpdate t A), mergeSingleLocale_eq_ok A ht, ?_⟩
  have hfind₁ : dictFind (dictSet S L (dictUpdate t A)) L =
      some (dictUpdate t A) := by
    rw [dictFind_dictSet, if_pos rfl]
  rw [mergeSingleLocale_eq_ok A hfind₁]
  have hupdate : dictUpdate (dictUpdate t A) A = dictUpdate t A := by
    apply dictUpdate_eq_self hwu
    intro q hq
    exact dictFind_dictUpdate_of_mem t hwA (dictFind_eq_some_of_mem hwA hq)
  rw [hupdate, dictSet_eq_self (hwS.1.dictSet L (dictUpdate t A)) hfind₁]

/-- Witness for claim C3 at a concrete store, locale, and additions map. -/
theorem claimC3_merge_idempotent_witness :
    ∃ S₁, mergeSingleLocale
        [("en", [("a", "Apple")]), ("ja", [("a", "りんご")])] "en"
        [("b", "Banana"), ("a", "Apricot")] = .ok S₁ ∧
      mergeSingleLocale S₁ "en" [("b", "Banana"), ("a", "Apricot")] =
        .ok S₁ :=
  claimC3_merge_idempotent
    [("en", [("a", "Apple")]), ("ja", [("a", "りんご")])] "en"
    [("b", "Banana"), ("a", "Apricot")] (by decide) (by decide) (by decide)

/-- Claim C4.  Normalize is idempotent: normalizing a well-formed store twice
produces exactly the store normalized once. -/
theorem claimC4_normalize_idempotent (S : Store) (hw : StoreWf S) :
    normalize (normalize S) = normalize S := by
  unfold normalize
  rw [List.map_map]
  apply List.map_congr_left
  intro p hp
  show (p.1, normalizeTable (normalizeTable p.2)) = (p.1, normalizeTable p.2)
  rw [normalizeTable_idem (hw.2 p hp)]

/-- Witness for claim C4 at a concrete store. -/
theorem claimC4_normalize_idempotent_witness :
    normalize (normalize
      [("en", [("b", "B"), ("a", "A")]), ("ja", [("z", "Z"), ("a", "あ")])]) =
    normalize
      [("en", [("b", "B"), ("a", "A")]), ("ja", [("z", "Z"), ("a", "あ")])] :=
  claimC4_normalize_idempotent
    [("en", [("b", "B"), ("a", "A")]), ("ja", [("z", "Z"), ("a", "あ")])]
    (by decide)

/-- Claim C5.  A successful single-locale merge maps every key of the
additions to its new value in the target locale's table (overwriting any
previous value) and leaves every key outside the additions at its previous
value. -/
theorem claimC5_merge_overwrite_semantics (S S' : Store) (L : String)
    (A t : Table) (hwA : DictWf A) (ht : dictFind S L = some t)
    (h : mergeSingleLocale S L A = .ok S') :
    (∀ k v, dictFind A k = some v → storeGet2 S' L k = some v) ∧
    (∀ k, k ∉ dictKeys A → storeGet2 S' L k = dictFind t k) := by
  rcases mergeSingleLocale_ok_inv h with ⟨t₀, ht₀, rfl⟩
  rw [ht] at ht₀
  injection ht₀ with ht₀
  subst ht₀
  have hfind : storeGet2 (dictSet S L (dictUpdate t A)) L =
      dictFind (dictUpdate t A) := by
    funext k
    unfold storeGet2
    rw [dictFind_dictSet, if_pos rfl]
    rfl
  constructor
  · intro k v hkv
    rw [hfind]
    exact dictFind_dictUpdate_of_mem t hwA hkv
  · intro k hk
    rw [hfind]
    exact dictFind_dictUpdate_of_not_mem t hk

/-- Witness for claim C5 at a concrete store and additions map. -/
theorem claimC5_merge_overwrite_semantics_witness :
    (∀ k v, dictFind ([("b", "Banana"), ("a", "Apricot")] : Table) k =
        some v →
      storeGet2 [("en", [("a", "Apricot"), ("b", "Banana")]),
        ("ja", [("a", "りんご")])] "en" k = some v) ∧
    (∀ k, k ∉ dictKeys ([("b", "Banana"), ("a", "Apricot")] : Table) →
      storeGet2 [("en", [("a", "Apricot"), ("b", "Banana")]),
        ("ja", [("a", "りんご")])] "en" k =
        dictFind ([("a", "Apple")] : Table) k) :=
  claimC5_merge_overwrite_semantics
    [("en", [("a", "Apple")]), ("ja", [("a", "りんご")])]
    [("en", [("a", "Apricot"), ("b", "Banana")]), ("ja", [("a", "りんご")])]
    "en" [("b", "Banana"), ("a", "Apricot")] [("a", "Apple")]
    (by decide) (by decide) (by decide)

/-- Claim C6.  Key-count accounting: when none of the n addition keys already
exists in the target locale's table, the merged table has exactly n more
entries than before. -/
theorem claimC6_merge_key_count (S S' : Store) (L : String) (A t : Table)
    (hwA : DictWf A) (ht : dictFind S L = some t)
    (hdisj : ∀ k ∈ dictKeys A, k ∉ dictKeys t)
    (h : mergeSingleLocale S L A = .ok S') :
    ∃ t', dictFind S' L = some t' ∧ t'.length = t.length + A.length := by
  rcases mergeSingleLocale_ok_inv h with ⟨t₀, ht₀, rfl⟩
  rw [ht] at ht₀
  injection ht₀ with ht₀
  subst ht₀
  refine ⟨dictUpdate t A, by rw [dictFind_dictSet, if_pos rfl], ?_⟩
  have hkeys := dictKeys_dictUpdate_disjoint t hwA hdisj
  calc (dictUpdate t A).length
      = (dictKeys (dictUpdate t A)).length := (List.length_map _ _).symm
    _ = (dictKeys t ++ dictKeys A).length := by rw [hkeys]
    _ = t.length + A.length := by simp [dictKeys]

/-- Witness for claim C6 at a concrete store and additions map. -/
theorem claimC6_merge_key_count_witness :
    ∃ t', dictFind [("en", [("a", "Apple"), ("b", "Banana"), ("c", "Cherry")]),
        ("ja", [("a", "りんご")])] "en" = some t' ∧
      t'.length = ([("a", "Apple")] : Table).length +
        ([("b", "Banana"), ("c", "Cherry")] : Table).length :=
  claimC6_merge_key_count
    [("en", [("a", "Apple")]), ("ja", [("a", "りんご")])]
    [("en", [("a", "Apple"), ("b", "Banana"), ("c", "Cherry")]),
      ("ja", [("a", "りんご")])]
    "en" [("b", "Banana"), ("c", "Cherry")] [("a", "Apple")]
    (by decide) (by decide) (by decide) (by decide)

/-- Claim C7.  After Normalize, each locale's table holds exactly the same
key/value pairs as before (a permutation), its keys iterate in strictly
ascending code-point lexicographic order, and lookup by key is unchanged. -/
theorem claimC7_normalize_sorts_tables (S : Store) (hw : StoreWf S)
    (L : String) (t : Table) (ht : dictFind S L = some t) :
    ∃ t', dictFind (normalize S) L = some t' ∧
      List.Perm t' t ∧
      List.Sorted (fun a b : String => a < b) (dictKeys t') ∧
      (∀ k, dictFind t' k = dictFind t k) := by
  have hwt : DictWf t := table_wf_of_dictFind hw ht
  refine ⟨normalizeTable t, ?_, ?_, ?_, ?_⟩
  · rw [dictFind_normalize, ht]
    rfl
  · rw [normalizeTable_eq_sortItems hwt]
    exact sortItems_perm t
  · rw [normalizeTable_eq_sortItems hwt]
    exact sorted_keys_of_sorted_pairs (sortItems_sorted t) (sortItems_wf hwt)
  · intro k
    rw [normalizeTable_eq_sortItems hwt]
    exact dictFind_of_perm hwt (sortItems_perm t).symm k

/-- Witness for claim C7 at a concrete store and locale. -/
theorem claimC7_normalize_sorts_tables_witness :
    ∃ t', dictFind (normalize
        [("en", [("b", "B"), ("a", "A")]), ("ja", [("z", "Z")])]) "en" =
        some t' ∧
      List.Perm t' [("b", "B"), ("a", "A")] ∧
      List.Sorted (fun a b : String => a < b) (dictKeys t') ∧
      (∀ k, dictFind t' k =
        dictFind ([("b", "B"), ("a", "A")] : Table) k) :=
  claimC7_normalize_sorts_tables
    [("en", [("b", "B"), ("a", "A")]), ("ja", [("z", "Z")])]
    (by decide) "en" [("b", "B"), ("a", "A")] (by decide)

/-- Claim C9.  Every operation of both scripts — single-locale merge,
multi-locale merge, and normalize — preserves the store's locale keys: a
successful run neither adds nor removes a locale table. -/
theorem claimC9_locale_set_preserved :
    (∀ (S S' : Store) (L : String) (A : Table),
      mergeSingleLocale S L A = .ok S' → dictKeys S' = dictKeys S) ∧
    (∀ (S S' : Store) (B : List (String × Table)),
      mergeMultiLocale S B = .ok S' → dictKeys S' = dictKeys S) ∧
    (∀ S : Store, dictKeys (normalize S) = dictKeys S) := by
  refine ⟨?_, ?_, ?_⟩
  · intro S S' L A h
    rcases mergeSingleLocale_ok_inv h with ⟨t, ht, rfl⟩
    exact dictKeys_dictSet_of_mem _ (mem_keys_of_dictFind_eq_some ht)
  · intro S S' B h
    exact (mergeMultiLocale_frame h).1
  · exact dictKeys_normalize

/-- Witness for claim C9: all three operations applied at concrete inputs. -/
theorem claimC9_locale_set_preserved_witness :
    dictKeys [("en", [("a", "Apricot"), ("b", "Banana")]),
        ("ja", [("a", "りんご")])] =
      dictKeys [("en", [("a", "Apple")]), ("ja", [("a", "りんご")])] ∧
    dictKeys [("en", [("a", "A")]), ("ja", [("b", "J")]), ("zh", [("b", "Z")]),
        ("zh-TW", [("b", "T")])] =
      dictKeys [("en", [("a", "A")]), ("ja", []), ("zh", []),
        ("zh-TW", [])] ∧
    dictKeys (normalize [("en", [("b", "B"), ("a", "A")])]) =
      dictKeys [("en", [("b", "B"), ("a", "A")])] :=
  ⟨claimC9_locale_set_preserved.1
      [("en", [("a", "Apple")]), ("ja", [("a", "りんご")])]
      [("en", [("a", "Apricot"), ("b", "Banana")]), ("ja", [("a", "りんご")])]
      "en" [("b", "Banana"), ("a", "Apricot")] (by decide),
    claimC9_locale_set_preserved.2.1
      [("en", [("a", "A")]), ("ja", []), ("zh", []), ("zh-TW", [])]
      [("en", [("a", "A")]), ("ja", [("b", "J")]), ("zh", [("b", "Z")]),
        ("zh-TW", [("b", "T")])]
      [("b", [("ja", "J"), ("zh", "Z"), ("zh-TW", "T")])] (by decide),
    claimC9_locale_set_preserved.2.2 [("en", [("b", "B"), ("a", "A")])]⟩

/-- Claim C10.  The multi-locale merge writes only to the fixed locales ja,
zh, zh-TW: after a successful merge, the table of every other locale — in
particular `en` — is exactly the table it was before. -/
theorem claimC10_multi_merge_frame (S S' : Store)
    (B : List (String × Table)) (h : mergeMultiLocale S B = .ok S') :
    ∀ l, l ∉ fixedLocales → dictFind S' l = dictFind S l :=
  fun l hl => (mergeMultiLocale_frame h).2 l hl

/-- Witness for claim C10: the `en` table survives a concrete multi-locale
merge unchanged. -/
theorem claimC10_multi_merge_frame_witness :
    dictFind [("en", [("a", "A")]), ("ja", [("b", "J")]), ("zh", [("b", "Z")]),
        ("zh-TW", [("b", "T")])] "en" =
      dictFind [("en", [("a", "A")]), ("ja", []), ("zh", []),
        ("zh-TW", [])] "en" :=
  claimC10_multi_merge_frame
    [("en", [("a", "A")]), ("ja", []), ("zh", []), ("zh-TW", [])]
    [("en", [("a", "A")]), ("ja", [("b", "J")]), ("zh", [("b", "Z")]),
      ("zh-TW", [("b", "T")])]
    [("b", [("ja", "J"), ("zh", "Z"), ("zh-TW", "T")])]
    (by decide) "en" (by decide)

/-! ### Round-trip lemmas: strings -/

@[simp] theorem skipWs_nil : skipWs [] = [] := rfl

@[simp] theorem skipWs_space (l : List Char) : skipWs (' ' :: l) = skipWs l :=
  rfl

@[simp] theorem skipWs_newline (l : List Char) :
    skipWs ('\n' :: l) = skipWs l := rfl

@[simp] theorem skipWs_quote (l : List Char) : skipWs ('"' :: l) = '"' :: l :=
  rfl

@[simp] theorem skipWs_colon (l : List Char) : skipWs (':' :: l) = ':' :: l :=
  rfl

@[simp] theorem skipWs_comma (l : List Char) : skipWs (',' :: l) = ',' :: l :=
  rfl

@[simp] theorem skipWs_lbrace (l : List Char) : skipWs ('{' :: l) = '{' :: l :=
  rfl

@[simp] theorem skipWs_rbrace (l : List Char) : skipWs ('}' :: l) = '}' :: l :=
  rfl

theorem skipWs_cons_of_ws {c : Char} (l : List Char) (h : isJsonWs c = true) :
    skipWs (c :: l) = skipWs l := by
  rw [skipWs, if_pos h]

theorem encode_append (s : String) (r : List Char) :
    encodeJString s ++ r = '"' :: (jBody s ++ '"' :: r) := by
  simp [encodeJString, jBody]

theorem hexVal_hexDigitChar (n : Nat) (h : n < 16) :
    hexVal (hexDigitChar n) = some n := by
  interval_cases n <;> decide

theorem pjb_quote (l : List Char) : parseJStringBody ('"' :: l) = some ([], l) := by
  rw [parseJStringBody.eq_def]
  simp

theorem pjb_esc_quote (l : List Char) :
    parseJStringBody ('\\' :: '"' :: l) =
      (parseJStringBody l).map (fun r => ('"' :: r.1, r.2)) := by
  rw [parseJStringBody.eq_def]
  simp

theorem pjb_esc_backslash (l : List Char) :
    parseJStringBody ('\\' :: '\\' :: l) =
      (parseJStringBody l).map (fun r => ('\\' :: r.1, r.2)) := by
  rw [parseJStringBody.eq_def]
  simp

theorem pjb_esc_b (l : List Char) :
    parseJStringBody ('\\' :: 'b' :: l) =
      (parseJStringBody l).map (fun r => (Char.ofNat 8 :: r.1, r.2)) := by
  rw [parseJStringBody.eq_def]
  simp

theorem pjb_esc_f (l : List Char) :
    parseJStringBody ('\\' :: 'f' :: l) =
      (parseJStringBody l).map (fun r => (Char.ofNat 12 :: r.1, r.2)) := by
  rw [parseJStringBody.eq_def]
  simp

theorem pjb_esc_n (l : List Char) :
    parseJStringBody ('\\' :: 'n' :: l) =
      (parseJStringBody l).map (fun r => ('\n' :: r.1, r.2)) := by
  rw [parseJStringBody.eq_def]
  simp

theorem pjb_esc_r (l : List Char) :
    parseJStringBody ('\\' :: 'r' :: l) =
      (parseJStringBody l).map (fun r => ('\r' :: r.1, r.2)) := by
  rw [parseJStringBody.eq_def]
  simp

theorem pjb_esc_t (l : List Char) :
    parseJStringBody ('\\' :: 't' :: l) =
      (parseJStringBody l).map (fun r => ('\t' :: r.1, r.2)) := by
  rw [parseJStringBody.eq_def]
  simp

theorem pjb_esc_u {h1 h2 h3 h4 : Char} {a b c2 d : Nat} (l : List Char)
    (ha : hexVal h1 = some a) (hb : hexVal h2 = some b)
    (hc : hexVal h3 = some c2) (hd : hexVal h4 = some d) :
    parseJStringBody ('\\' :: 'u' :: h1 :: h2 :: h3 :: h4 :: l) =
      (parseJStringBody l).map
        (fun r => (Char.ofNat (4096 * a + 256 * b + 16 * c2 + d) :: r.1,
          r.2)) := by
  rw [parseJStringBody.eq_def]
  simp [ha, hb, hc, hd]

theorem pjb_literal {c : Char} (l : List Char) (h1 : c ≠ '"') (h2 : c ≠ '\\')
    (h3 : 32 ≤ c.toNat) :
    parseJStringBody (c :: l) =
      (parseJStringBody l).map (fun r => (c :: r.1, r.2)) := by
  rw [parseJStringBody.eq_def]
  simp [h1, h2, h3]

theorem parseJStringBody_escaped (cs : List Char) (rest : List Char) :
    parseJStringBody ((cs.map escapeChar).flatten ++ '"' :: rest) =
      some (cs, rest) := by
  induction cs with
  | nil =>
    simp only [List.map_nil, List.flatten_nil, List.nil_append]
    exact pjb_quote rest
  | cons c cs ih =>
    simp only [List.map_cons, List.flatten_cons, List.append_assoc]
    by_cases hq : c = '"'
    · subst hq
      rw [show escapeChar '"' = ['\\', '"'] from rfl]
      simp only [List.cons_append, List.nil_append]
      rw [pjb_esc_quote, ih]
      rfl
    · by_cases hbs : c = '\\'
      · subst hbs
        rw [show escapeChar '\\' = ['\\', '\\'] from rfl]
        simp only [List.cons_append, List.nil_append]
        rw [pjb_esc_backslash, ih]
        rfl
      · by_cases hn : c = '\n'
        · subst hn
          rw [show escapeChar '\n' = ['\\', 'n'] from rfl]
          simp only [List.cons_append, List.nil_append]
          rw [pjb_esc_n, ih]
          rfl
        · by_cases hr : c = '\r'
          · subst hr
            rw [show escapeChar '\r' = ['\\', 'r'] from rfl]
            simp only [List.cons_append, List.nil_append]
            rw [pjb_esc_r, ih]
            rfl
          · by_cases hts : c = '\t'
            · subst hts
              rw [show escapeChar '\t' = ['\\', 't'] from rfl]
              simp only [List.cons_append, List.nil_append]
              rw [pjb_esc_t, ih]
              rfl
            · by_cases h8 : c.toNat = 8
              · have hch : escapeChar c = ['\\', 'b'] := by
                  unfold escapeChar
                  rw [if_neg hq, if_neg hbs, if_neg hn, if_neg hr,
                    if_neg hts, if_pos h8]
                rw [hch]
                simp only [List.cons_append, List.nil_append]
                rw [pjb_esc_b, ih]
                have : Char.ofNat 8 = c := by rw [← h8, Char.ofNat_toNat]
                rw [this]
                rfl
              · by_cases h12 : c.toNat = 12
                · have hch : escapeChar c = ['\\', 'f'] := by
                    unfold escapeChar
                    rw [if_neg hq, if_neg hbs, if_neg hn, if_neg hr,
                      if_neg hts, if_neg h8, if_pos h12]
                  rw [hch]
                  simp only [List.cons_append, List.nil_append]
                  rw [pjb_esc_f, ih]
                  have : Char.ofNat 12 = c := by rw [← h12, Char.ofNat_toNat]
                  rw [this]
                  rfl
                · by_cases hc32 : c.toNat < 32
                  · have hch : escapeChar c =
                        ['\\', 'u', '0', '0', hexDigitChar (c.toNat / 16),
                          hexDigitChar (c.toNat % 16)] := by
                      unfold escapeChar
                      rw [if_neg hq, if_neg hbs, if_neg hn, if_neg hr,
                        if_neg hts, if_neg h8, if_neg h12, if_pos hc32]
                    rw [hch]
                    simp only [List.cons_append, List.nil_append]
                    rw [pjb_esc_u _ (show hexVal '0' = some 0 from by decide)
                      (show hexVal '0' = some 0 from by decide)
                      (hexVal_hexDigitChar (c.toNat / 16) (by omega))
                      (hexVal_hexDigitChar (c.toNat % 16) (by omega)), ih]
                    have harith : 4096 * 0 + 256 * 0 + 16 * (c.toNat / 16) +
                        c.toNat % 16 = c.toNat := by omega
                    rw [harith, Char.ofNat_toNat]
                    rfl
                  · have hch : escapeChar c = [c] := by
                      unfold escapeChar
                      rw [if_neg hq, if_neg hbs, if_neg hn, if_neg hr,
                        if_neg hts, if_neg h8, if_neg h12, if_neg hc32]
                    rw [hch]
                    simp only [List.cons_append, List.nil_append]
                    rw [pjb_literal _ hq hbs (by omega), ih]
                    rfl

theorem parseJStringBody_jBody (s : String) (rest : List Char) :
    parseJStringBody (jBody s ++ '"' :: rest) = some (s.data, rest) :=
  parseJStringBody_escaped s.data rest

@[simp] theorem parseJString_quote_jBody (s : String) (rest : List Char) :
    parseJString ('"' :: (jBody s ++ '"' :: rest)) = some (s, rest) := by
  rw [show parseJString ('"' :: (jBody s ++ '"' :: rest)) =
      (parseJStringBody (jBody s ++ '"' :: rest)).map
        (fun r => (⟨r.1⟩, r.2)) from rfl,
    parseJStringBody_jBody]
  rfl

/-! ### Round-trip lemmas: tables and stores -/

theorem serializeTableItems_singleton (kv : String × String) :
    serializeTableItems [kv] = serializeTableEntry kv := rfl

theorem serializeTableItems_cons (kv : String × String) (t : Table)
    (h : t ≠ []) :
    serializeTableItems (kv :: t) =
      serializeTableEntry kv ++ ',' :: '\n' :: serializeTableItems t := by
  cases t with
  | nil => exact absurd rfl h
  | cons q t =>
    show serializeTableEntry kv ++ [',', '\n'] ++
      serializeTableItems (q :: t) = _
    simp

theorem serializeStoreItems_singleton (p : String × Table) :
    serializeStoreItems [p] = serializeStoreEntry p := rfl

theorem serializeStoreItems_cons (p : String × Table) (S : Store)
    (h : S ≠ []) :
    serializeStoreItems (p :: S) =
      serializeStoreEntry p ++ ',' :: '\n' :: serializeStoreItems S := by
  cases S with
  | nil => exact absurd rfl h
  | cons q S =>
    show serializeStoreEntry p ++ [',', '\n'] ++
      serializeStoreItems (q :: S) = _
    simp

theorem parseTableEntries_cons_ws (fuel : Nat) {c : Char} (l : List Char)
    (h : isJsonWs c = true) :
    parseTableEntries fuel (c :: l) = parseTableEntries fuel l := by
  cases fuel with
  | zero => rfl
  | succ f =>
    simp only [parseTableEntries]
    rw [skipWs_cons_of_ws l h]

theorem parseStoreEntries_cons_ws (fuel : Nat) {c : Char} (l : List Char)
    (h : isJsonWs c = true) :
    parseStoreEntries fuel (c :: l) = parseStoreEntries fuel l := by
  cases fuel with
  | zero => rfl
  | succ f =>
    simp only [parseStoreEntries]
    rw [skipWs_cons_of_ws l h]

theorem parseTableEntries_round (rest : List Char) :
    ∀ t : Table, t ≠ [] → ∀ fuel : Nat, t.length < fuel →
      parseTableEntries fuel
        (serializeTableItems t ++ '\n' :: ' ' :: ' ' :: '}' :: rest) =
        some (t, rest) := by
  intro t
  induction t with
  | nil => intro h; exact absurd rfl h
  | cons kv t ih =>
    intro _ fuel hf
    obtain ⟨f, rfl⟩ : ∃ f, fuel = f + 1 := ⟨fuel - 1, by omega⟩
    by_cases ht : t = []
    · subst ht
      rw [serializeTableItems_singleton]
      simp only [serializeTableEntry, List.cons_append, List.append_assoc,
        List.nil_append, encode_append]
      simp only [parseTableEntries, skipWs_space, skipWs_quote,
        parseJString_quote_jBody, skipWs_colon, skipWs_newline, skipWs_rbrace]
      simp
    · rw [serializeTableItems_cons kv t ht]
      simp only [serializeTableEntry, List.cons_append, List.append_assoc,
        List.nil_append, encode_append]
      simp only [parseTableEntries, skipWs_space, skipWs_quote,
        parseJString_quote_jBody, skipWs_colon, skipWs_comma]
      rw [parseTableEntries_cons_ws f _ (by decide),
        ih ht f (by simp at hf; omega)]
      simp

theorem skipWs_serializeTable (t : Table) (X : List Char) :
    skipWs (serializeTable t ++ X) = serializeTable t ++ X := by
  cases t with
  | nil => rfl
  | cons kv t' => rfl

theorem parseTable_round (t : Table) (rest : List Char) (fuel : Nat)
    (hw : DictWf t) (hf : t.length < fuel) :
    parseTable fuel (serializeTable t ++ rest) = some (t, rest) := by
  cases t with
  | nil =>
    show parseTable fuel ('{' :: '}' :: rest) = some ([], rest)
    simp [parseTable]
  | cons kv t' =>
    have hser : serializeTable (kv :: t') ++ rest =
        '{' :: '\n' :: (serializeTableItems (kv :: t') ++
          '\n' :: ' ' :: ' ' :: '}' :: rest) := by
      show ('{' :: '\n' :: serializeTableItems (kv :: t') ++
        ['\n', ' ', ' ', '}']) ++ rest = _
      simp
    rw [hser]
    have hhead : ∃ Y, skipWs ('\n' :: (serializeTableItems (kv :: t') ++
        '\n' :: ' ' :: ' ' :: '}' :: rest)) = '"' :: Y := by
      by_cases ht' : t' = []
      · subst ht'
        rw [serializeTableItems_singleton]
        simp only [serializeTableEntry, List.cons_append, List.append_assoc,
          List.nil_append, encode_append, skipWs_newline, skipWs_space,
          skipWs_quote]
        exact ⟨_, rfl⟩
      · rw [serializeTableItems_cons kv t' ht']
        simp only [serializeTableEntry, List.cons_append, List.append_assoc,
          List.nil_append, encode_append, skipWs_newline, skipWs_space,
          skipWs_quote]
        exact ⟨_, rfl⟩
    obtain ⟨Y, hY⟩ := hhead
    simp only [parseTable, hY]
    rw [parseTableEntries_cons_ws fuel _ (by decide),
      parseTableEntries_round rest (kv :: t') (by simp) fuel hf]
    simp [pyDict_eq_self hw]

theorem storeSize_nil : storeSize [] = 0 := rfl

theorem storeSize_cons (p : String × Table) (S : Store) :
    storeSize (p :: S) = p.2.length + 1 + storeSize S := rfl

theorem parseStoreEntries_round (rest : List Char) :
    ∀ S : Store, S ≠ [] → (∀ p ∈ S, DictWf p.2) → ∀ fuel : Nat,
      storeSize S < fuel →
      parseStoreEntries fuel
        (serializeStoreItems S ++ '\n' :: '}' :: rest) = some (S, rest) := by
  intro S
  induction S with
  | nil => intro h; exact absurd rfl h
  | cons p S ih =>
    intro _ hwf fuel hf
    obtain ⟨f, rfl⟩ : ∃ f, fuel = f + 1 := ⟨fuel - 1, by omega⟩
    rw [storeSize_cons] at hf
    by_cases hS : S = []
    · subst hS
      rw [serializeStoreItems_singleton]
      simp only [serializeStoreEntry, List.cons_append, List.append_assoc,
        List.nil_append, encode_append]
      simp only [parseStoreEntries, skipWs_space, skipWs_quote,
        parseJString_quote_jBody, skipWs_colon, skipWs_serializeTable]
      rw [parseTable_round p.2 _ f (hwf p (List.mem_cons_self _ _))
        (by rw [storeSize_nil] at hf; omega)]
      simp
    · rw [serializeStoreItems_cons p S hS]
      simp only [serializeStoreEntry, List.cons_append, List.append_assoc,
        List.nil_append, encode_append]
      simp only [parseStoreEntries, skipWs_space, skipWs_quote,
        parseJString_quote_jBody, skipWs_colon, skipWs_serializeTable]
      rw [parseTable_round p.2 _ f (hwf p (List.mem_cons_self _ _))
        (by omega)]
      simp only [skipWs_comma]
      rw [parseStoreEntries_cons_ws f _ (by decide),
        ih hS (fun q hq => hwf q (List.mem_cons_of_mem _ hq)) f (by omega)]
      simp

theorem parseStore_round (S : Store) (rest : List Char) (fuel : Nat)
    (hw : StoreWf S) (hf : storeSize S < fuel) :
    parseStore fuel (serializeStore S ++ rest) = some (S, rest) := by
  cases S with
  | nil =>
    show parseStore fuel ('{' :: '}' :: rest) = some ([], rest)
    simp [parseStore]
  | cons p S' =>
    have hser : serializeStore (p :: S') ++ rest =
        '{' :: '\n' :: (serializeStoreItems (p :: S') ++
          '\n' :: '}' :: rest) := by
      show ('{' :: '\n' :: serializeStoreItems (p :: S') ++ ['\n', '}']) ++
        rest = _
      simp
    rw [hser]
    have hhead : ∃ Y, skipWs ('\n' :: (serializeStoreItems (p :: S') ++
        '\n' :: '}' :: rest)) = '"' :: Y := by
      by_cases hS' : S' = []
      · subst hS'
        rw [serializeStoreItems_singleton]
        simp only [serializeStoreEntry, List.cons_append, List.append_assoc,
          List.nil_append, encode_append, skipWs_newline, skipWs_space,
          skipWs_quote]
        exact ⟨_, rfl⟩
      · rw [serializeStoreItems_cons p S' hS']
        simp only [serializeStoreEntry, List.cons_append, List.append_assoc,
          List.nil_append, encode_append, skipWs_newline, skipWs_space,
          skipWs_quote]
        exact ⟨_, rfl⟩
    obtain ⟨Y, hY⟩ := hhead
    simp only [parseStore, skipWs_lbrace, hY]
    rw [parseStoreEntries_cons_ws fuel _ (by decide),
      parseStoreEntries_round rest (p :: S') (by simp) hw.2 fuel hf]
    simp [pyDict_eq_self hw.1]

theorem serializeTable_length (t : Table) :
    t.length ≤ (serializeTable t).length := by
  cases t with
  | nil => simp [serializeTable]
  | cons kv t' =>
    show (kv :: t').length ≤
      (['{', '\n'] ++ serializeTableItems (kv :: t') ++
        ['\n', ' ', ' ', '}']).length
    have haux : ∀ u : Table, u.length ≤ (serializeTableItems u).length + 1 := by
      intro u
      induction u with
      | nil => simp
      | cons q u ihu =>
        by_cases hu : u = []
        · subst hu
          rw [serializeTableItems_singleton]
          simp [serializeTableEntry]
        · rw [serializeTableItems_cons q u hu]
          simp only [List.length_cons, List.length_append,
            serializeTableEntry]
          simp at ihu ⊢
          omega
    have := haux (kv :: t')
    simp at this ⊢
    omega

theorem serializeStoreItems_length (S : Store) :
    storeSize S ≤ (serializeStoreItems S).length + 1 := by
  induction S with
  | nil => simp [storeSize_nil]
  | cons p S ih =>
    rw [storeSize_cons]
    have hentry : p.2.length + 1 ≤ (serializeStoreEntry p).length := by
      have := serializeTable_length p.2
      simp only [serializeStoreEntry]
      simp
      omega
    by_cases hS : S = []
    · subst hS
      rw [serializeStoreItems_singleton, storeSize_nil]
      omega
    · rw [serializeStoreItems_cons p S hS]
      simp only [List.length_append, List.length_cons]
      omega

theorem serializeStore_length (S : Store) :
    storeSize S < (serializeStore S).length := by
  cases S with
  | nil => simp [serializeStore, storeSize_nil]
  | cons p S' =>
    show storeSize (p :: S') <
      (['{', '\n'] ++ serializeStoreItems (p :: S') ++ ['\n', '}']).length
    have := serializeStoreItems_length (p :: S')
    simp at this ⊢
    omega

theorem load_save (S : Store) (hw : StoreWf S) : load (save S) = some S := by
  unfold load save
  have hdata : (⟨serializeStore S⟩ : String).data = serializeStore S := rfl
  rw [hdata]
  have hfuel : storeSize S < (serializeStore S).length + 1 := by
    have := serializeStore_length S
    omega
  have h := parseStore_round S [] ((serializeStore S).length + 1) hw hfuel
  rw [List.append_nil] at h
  rw [h]
  rfl

/-- Claim C8.  Round-trip fidelity: saving a well-formed store and loading it
back reproduces the store exactly — every key, every value, all Unicode
content — and the result is equal, as Python dicts compare (order ignored),
to Normalize of the original store. -/
theorem claimC8_save_load_roundtrip (S : Store) (hw : StoreWf S) :
    ∃ S', load (save S) = some S' ∧ storeEq S' (normalize S) := by
  refine ⟨S, load_save S hw, ?_⟩
  intro l
  rw [dictFind_normalize]
  cases hf : dictFind S l with
  | none => exact trivial
  | some t =>
    have hwt : DictWf t := table_wf_of_dictFind hw hf
    show tableEq t (normalizeTable t)
    intro k
    rw [normalizeTable_eq_sortItems hwt]
    exact (dictFind_of_perm hwt (sortItems_perm t).symm k).symm

/-- Witness for claim C8 at a concrete store with Unicode content. -/
theorem claimC8_save_load_roundtrip_witness :
    ∃ S', load (save [("en", [("b", "B"), ("a", "App\"le\\")]),
        ("ja", [("a", "りんご")]), ("zh", [])]) = some S' ∧
      storeEq S' (normalize [("en", [("b", "B"), ("a", "App\"le\\")]),
        ("ja", [("a", "りんご")]), ("zh", [])]) :=
  claimC8_save_load_roundtrip
    [("en", [("b", "B"), ("a", "App\"le\\")]),
      ("ja", [("a", "りんご")]), ("zh", [])] (by decide)
